import Mathlib

/-!
Verification development for the gradient-engineer toolbox engine.

The definitions below are a shallow embedding of the Go source in
`app/toolbox.go`, `app/ui.go` and `playbook/playbook.go`:

* pure string manipulation (`strings.Fields`, `strings.TrimSpace`,
  `strings.Split`, `strings.Join`) is translated to recursive functions over
  character lists;
* filesystem access (`os.ReadDir`, `os.Stat`, `os.ReadFile` + YAML parsing)
  becomes an explicit `FS` record passed to the functions that read it;
* the tar extraction loop of `Toolbox.Download` becomes a function from a list
  of tar headers to the list of filesystem mutations it performs;
* child-process execution (`exec.CommandContext` + `CombinedOutput`) becomes an
  explicit `ExecOutcome` record describing the observed run of the child;
* the Bubble Tea event loop (`model.Update`) becomes a step function
  `update : FS → UIModel → Msg → UIModel × List Effect`, where `Effect` records
  the `tea.Cmd`s returned to the runtime (launching a diagnostic, invoking the
  summarizer, quitting, printing an error).

Presentation-only state of the Go `model` (viewport, spinner, start time,
`execSeconds`, `requestScrollToBottom`) is omitted: it is never read by the
orchestration logic.
-/

/-! ## Go string primitives -/

/-- The ASCII white-space characters recognised by Go's `unicode.IsSpace`
(the command templates in play are ASCII, so the Latin-1 additions are not
modelled). -/
def goIsSpace (c : Char) : Bool :=
  c = ' ' || c = '\t' || c = '\n' || c = '\x0b' || c = '\x0c' || c = '\r'

/-- Splits a character list into maximal runs of non-space characters,
mirroring Go's `strings.Fields`; `cur` accumulates the current word in
reverse. -/
def fieldsGo : List Char → List Char → List (List Char)
  | [], cur => if cur.isEmpty then [] else [cur.reverse]
  | c :: cs, cur =>
    if goIsSpace c then
      if cur.isEmpty then fieldsGo cs [] else cur.reverse :: fieldsGo cs []
    else fieldsGo cs (c :: cur)

/-- Splits a character list into maximal runs of non-space characters. -/
def fieldsList (l : List Char) : List (List Char) :=
  fieldsGo l []

/-- Go's `strings.Fields`. -/
def goFields (s : String) : List String :=
  (fieldsList s.data).map List.asString

/-- Go's `strings.TrimSpace` (restricted to the ASCII space set, as above). -/
def trimSpace (s : String) : String :=
  (((s.data.dropWhile goIsSpace).reverse.dropWhile goIsSpace).reverse).asString

/-- Splits a character list at every newline character; mirrors Go's
`strings.Split(s, "\n")` (which never returns an empty list and keeps
empty segments). -/
def splitNl : List Char → List (List Char)
  | [] => [[]]
  | c :: cs =>
    if c = '\n' then [] :: splitNl cs
    else
      match splitNl cs with
      | w :: ws => (c :: w) :: ws
      | [] => [[c]]

/-- Go's `strings.Split(s, "\n")`. -/
def goSplitLines (s : String) : List String :=
  (splitNl s.data).map List.asString

/-- Go's `strings.Join(elems, sep)`. -/
def goJoin (sep : String) : List String → String
  | [] => ""
  | [x] => x
  | x :: rest => x ++ sep ++ goJoin sep rest

/-! ## Data model (`playbook/playbook.go`, `app/toolbox.go`) -/

/-- `playbook.PlaybookCommand`: one declared diagnostic. -/
structure PlaybookCommand where
  command : String
  description : String
  timeoutSeconds : Int
deriving DecidableEq

/-- `playbook.PlaybookConfig`: the manifest loaded from `toolbox/playbook.yaml`. -/
structure PlaybookConfig where
  id : String
  nixpkgsVersion : String
  nixpkgsPackages : List String
  systemPrompt : String
  commands : List PlaybookCommand
deriving DecidableEq

/-- `DiagnosticCommand` from `toolbox.go`: a resolved invocation.  `timeout` is
in nanoseconds (Go `time.Duration`). -/
structure DiagnosticCommand where
  command : String
  display : String
  spec : Option PlaybookCommand
  timeout : Int
deriving DecidableEq

/-- The `Toolbox` struct.  As in the source, `tempDir = ""` means "not
downloaded yet". -/
structure Toolbox where
  url : String
  tempDir : String
  playbook : Option PlaybookConfig
deriving DecidableEq

/-! ## Abstract filesystem seen by `GetDiagnosticCommands` -/

/-- The result of `os.Stat`: directory bit and permission bits. -/
structure FileInfo where
  isDir : Bool
  mode : Nat
deriving DecidableEq

/-- One entry returned by `os.ReadDir`. -/
structure DirEntry where
  name : String
  isDir : Bool
deriving DecidableEq

/-- Outcome of reading and YAML-parsing `toolbox/playbook.yaml`. -/
inductive PlaybookErr
  | readFailed (msg : String)
  | parseFailed (msg : String)
deriving DecidableEq

/-- The filesystem state read by `GetDiagnosticCommands`:
the (read + parsed) playbook, the listing of the nix store directory
(`none` models an `os.ReadDir` error), and `os.Stat` keyed by full path. -/
structure FS where
  playbook : Except PlaybookErr PlaybookConfig
  storeEntries : Option (List DirEntry)
  stat : String → Option FileInfo

/-! ## Command resolution (`Toolbox.GetDiagnosticCommands`) -/

/-- `path.Join(t.TempDir, "toolbox")`. -/
def toolboxPathOf (tempDir : String) : String := tempDir ++ "/toolbox"

/-- `filepath.Join(toolboxPath, "nix", "store")`. -/
def storeDirOf (tempDir : String) : String := toolboxPathOf tempDir ++ "/nix/store"

/-- `filepath.Join(toolboxPath, "proot")`. -/
def prootPathOf (tempDir : String) : String := toolboxPathOf tempDir ++ "/proot"

/-- The sandbox-wrapper invocation tokens joined into a string:
`fmt.Sprintf("%s -b %s/nix:/nix", prootPath, toolboxPath)`. -/
def prootInvoke (tempDir : String) : String :=
  prootPathOf tempDir ++ " -b " ++ toolboxPathOf tempDir ++ "/nix:/nix"

/-- Which of the two per-entry locations a binary was found in. -/
inductive Branch
  | bin
  | sbin
deriving DecidableEq

/-- `filepath.Join(storeDir, e.Name(), "bin", binName)` and the `sbin` variant. -/
def candidatePath (storeDir entryName : String) (br : Branch) (binName : String) : String :=
  match br with
  | .bin => storeDir ++ "/" ++ entryName ++ "/bin/" ++ binName
  | .sbin => storeDir ++ "/" ++ entryName ++ "/sbin/" ++ binName

/-- The stat test applied to a candidate:
`err == nil && !st.IsDir() && (st.Mode()&0o111 != 0)`. -/
def statIsExecFile (fi : Option FileInfo) : Bool :=
  match fi with
  | some st => !st.isDir && (st.mode &&& 0o111 != 0)
  | none => false

/-- The inner loop of `GetDiagnosticCommands` over the store entries:
skip non-directories, try `bin/<name>` then `sbin/<name>`, first hit wins. -/
def resolveInEntries (fs : FS) (storeDir binName : String) : List DirEntry → Option String
  | [] => none
  | e :: rest =>
    if !e.isDir then resolveInEntries fs storeDir binName rest
    else if statIsExecFile (fs.stat (candidatePath storeDir e.name .bin binName)) then
      some (candidatePath storeDir e.name .bin binName)
    else if statIsExecFile (fs.stat (candidatePath storeDir e.name .sbin binName)) then
      some (candidatePath storeDir e.name .sbin binName)
    else resolveInEntries fs storeDir binName rest

/-- Binary resolution: `resolved` stays empty (here `none`) when
`os.ReadDir(storeDir)` fails. -/
def resolveBinary (fs : FS) (storeDir binName : String) : Option String :=
  match fs.storeEntries with
  | none => none
  | some es => resolveInEntries fs storeDir binName es

/-- Characterisation helper (not in the source): whether one store entry offers
the binary, with `bin` taking priority over `sbin`, as in the source loop. -/
def entryMatch (fs : FS) (storeDir binName : String) (e : DirEntry) : Option Branch :=
  if !e.isDir then none
  else if statIsExecFile (fs.stat (candidatePath storeDir e.name .bin binName)) then some .bin
  else if statIsExecFile (fs.stat (candidatePath storeDir e.name .sbin binName)) then some .sbin
  else none

/-- The errors `GetDiagnosticCommands` can return, with their `fmt.Errorf`
messages reproduced by `GetCmdsErr.message`. -/
inductive GetCmdsErr
  | playbookRead (msg : String)
  | playbookParse (msg : String)
  | emptyCommand (cmd : String)
  | binaryNotFound (bin : String)
deriving DecidableEq

/-- The `fmt.Errorf` text of each error. -/
def GetCmdsErr.message : GetCmdsErr → String
  | .playbookRead e => "failed to read playbook.yaml from toolbox: " ++ e
  | .playbookParse e => "failed to parse playbook.yaml: " ++ e
  | .emptyCommand c => "command " ++ c ++ " is empty"
  | .binaryNotFound b => "binary for command " ++ b ++ " not found in toolbox nix store"

/-- The invocation string built for a resolved binary:
`prootPrefix + " " + resolved + " " + strings.Join(args, " ")`, with the
trailing part dropped when there are no arguments. -/
def buildCmdStr (pt resolved : String) (args : List String) : String :=
  if args.length > 0 then pt ++ " " ++ resolved ++ " " ++ goJoin " " args
  else pt ++ " " ++ resolved

/-- The effective timeout in nanoseconds: the declared override if positive,
otherwise 5 seconds. -/
def effectiveTimeout (c : PlaybookCommand) : Int :=
  if c.timeoutSeconds > 0 then c.timeoutSeconds * 1000000000 else 5 * 1000000000

/-- The per-command loop of `GetDiagnosticCommands`: tokenise the template,
resolve the binary, build the wrapped invocation; any failure aborts the whole
batch (the Go function returns `nil, err`). -/
def buildCommands (fs : FS) (storeDir pt : String) :
    List PlaybookCommand → Except GetCmdsErr (List DiagnosticCommand)
  | [] => .ok []
  | c :: rest =>
    match goFields c.command with
    | [] => .error (.emptyCommand c.command)
    | binName :: args =>
      match resolveBinary fs storeDir binName with
      | none => .error (.binaryNotFound binName)
      | some resolved =>
        match buildCommands fs storeDir pt rest with
        | .error e => .error e
        | .ok tail =>
          .ok ({ command := buildCmdStr pt resolved args,
                 display := c.description,
                 spec := some c,
                 timeout := effectiveTimeout c } :: tail)

/-- `Toolbox.GetDiagnosticCommands`.  Returns the (possibly updated) toolbox —
the source stores the parsed playbook on the receiver — together with either
the full command list or the first error. -/
def Toolbox.getDiagnosticCommands (t : Toolbox) (fs : FS) :
    Toolbox × Except GetCmdsErr (List DiagnosticCommand) :=
  if t.tempDir = "" then (t, .ok [])
  else
    match fs.playbook with
    | .error (.readFailed e) => (t, .error (.playbookRead e))
    | .error (.parseFailed e) => (t, .error (.playbookParse e))
    | .ok cfg =>
      ({ t with playbook := some cfg },
       buildCommands fs (storeDirOf t.tempDir) (prootInvoke t.tempDir) cfg.commands)

/-! ## Execution (`Toolbox.ExecuteDiagnosticCommand`) -/

/-- Observed behaviour of the child process spawned by
`exec.CommandContext(...).CombinedOutput()`:  the combined stdout+stderr bytes
produced before the command finished or was killed, whether `CombinedOutput`
returned a non-nil error, and whether the context deadline had expired
(`ctx.Err() == context.DeadlineExceeded`). -/
structure ExecOutcome where
  output : String
  combinedOutputErr : Bool
  ctxDeadlineExceeded : Bool
deriving DecidableEq

/-- The errors `ExecuteDiagnosticCommand` can return. -/
inductive ExecErr
  | notDownloaded
  | resolutionFailed (declared : String)
  | resolutionFailedUnknown
  | emptyCommand
  | commandFailed (display output : String)
deriving DecidableEq

/-- The output-bounding step: keep at most the last 100 elements of the
newline-split output. -/
def truncLines (lines : List String) : List String :=
  if lines.length > 100 then lines.drop (lines.length - 100) else lines

/-- Split the captured output on newlines, keep the last 100 segments, rejoin:
the tail of `ExecuteDiagnosticCommand`. -/
def truncateOutput (s : String) : String :=
  goJoin "\n" (truncLines (goSplitLines s))

/-- `Toolbox.ExecuteDiagnosticCommand`, with the child-process run abstracted
into `run`.  The deadline used for the context is `cmd.timeout`, defaulting to
30 seconds when zero (see `effectiveTimeout` for the resolver-side default);
`run.ctxDeadlineExceeded` reports expiry of that deadline. -/
def Toolbox.executeDiagnosticCommand (t : Toolbox) (cmd : DiagnosticCommand)
    (run : ExecOutcome) : Except ExecErr String :=
  if t.tempDir = "" then .error .notDownloaded
  else if trimSpace cmd.command = "" then
    match cmd.spec with
    | some sp =>
      if sp.command ≠ "" then .error (.resolutionFailed sp.command)
      else .error .resolutionFailedUnknown
    | none => .error .resolutionFailedUnknown
  else
    match goFields cmd.command with
    | [] => .error .emptyCommand
    | _ :: _ =>
      if run.combinedOutputErr && !run.ctxDeadlineExceeded then
        .error (.commandFailed cmd.display run.output)
      else .ok (truncateOutput run.output)

/-! ## Archive extraction (`Toolbox.Download`, lines 89–138)

Paths are modelled as lists of segments below an absolute root; the
temporary directory is such a list.  `filepath.Join(tempDir, header.Name)`
cleans the joined path, so `..` segments pop and `.` segments vanish. -/

/-- Tar entry types distinguished by the extraction switch. -/
inductive TarType
  | dir
  | reg
  | symlink
  | other (flag : Nat)
deriving DecidableEq

/-- The fields of a tar header the extraction loop reads. -/
structure TarHeader where
  name : List String
  typeflag : TarType
  mode : Nat
  linkname : String
deriving DecidableEq

/-- Filesystem mutations performed by the extraction loop. -/
inductive FSMutation
  | mkdirAll (path : List String)
  | createFile (path : List String) (mode : Nat)
  | symlink (linkTarget : String) (path : List String)
deriving DecidableEq

/-- The only entry-level error the loop produces. -/
inductive ExtractErr
  | unsupportedType (flag : Nat) (name : List String)
deriving DecidableEq

/-- Lexical path cleaning of `base` followed by further segments, as performed
by `filepath.Join` on an absolute, already-clean `base`: empty and `.`
segments vanish, `..` pops (clamped at the filesystem root). -/
def cleanAppend : List String → List String → List String
  | acc, [] => acc
  | acc, "" :: rest => cleanAppend acc rest
  | acc, "." :: rest => cleanAppend acc rest
  | acc, ".." :: rest => cleanAppend acc.dropLast rest
  | acc, s :: rest => cleanAppend (acc ++ [s]) rest

/-- Whether `p` lies inside the directory `base` (or is `base` itself). -/
def insideDir (base p : List String) : Bool :=
  List.isPrefixOf base p

/-- Extraction of a single tar entry: the mutations performed, and the error
returned (if any).  Mirrors the loop body: `MkdirAll(filepath.Dir(target))`
first, then the switch on the type flag.  No containment check is made. -/
def extractEntry (tempDir : List String) (h : TarHeader) : List FSMutation × Option ExtractErr :=
  let targetPath := cleanAppend tempDir h.name
  let pre := FSMutation.mkdirAll targetPath.dropLast
  match h.typeflag with
  | .dir => ([pre, .mkdirAll targetPath], none)
  | .reg => ([pre, .createFile targetPath h.mode], none)
  | .symlink => ([pre, .symlink h.linkname targetPath], none)
  | .other f => ([pre], some (.unsupportedType f h.name))

/-- The whole extraction loop of `Toolbox.Download`: entries are processed in
order and the first error aborts the loop (mutations already made persist). -/
def extractArchive (tempDir : List String) : List TarHeader → List FSMutation × Option ExtractErr
  | [] => ([], none)
  | h :: rest =>
    let r := extractEntry tempDir h
    match r.2 with
    | some e => (r.1, some e)
    | none =>
      let rr := extractArchive tempDir rest
      (r.1 ++ rr.1, rr.2)

/-- The path a mutation touches. -/
def FSMutation.path : FSMutation → List String
  | .mkdirAll p => p
  | .createFile p _ => p
  | .symlink _ p => p

/-! ## The orchestrator event loop (`app/ui.go`)

The Bubble Tea `model.Update` method becomes a pure step function.  Messages
carry exactly the data of the Go message structs; the `tea.Cmd`s a step hands
back to the runtime are recorded as a list of `Effect`s.  Fields of the Go
`model` that exist only for rendering (`vp`, `spin`, `startTime`,
`execSeconds`, `requestScrollToBottom`) are not part of the state. -/

/-- `commandStatus` from `ui.go`; the zero value is `pending`. -/
inductive Status
  | pending
  | running
  | success
  | error
deriving DecidableEq

/-- One `(description, output)` pair handed to the summarizer
(`SummaryCommand` in `summarize.go`). -/
structure SummaryCommand where
  description : Option PlaybookCommand
  output : String
deriving DecidableEq

/-- The orchestrator state: the fields of the Go `model` that the event loop
reads or writes (presentation-only fields omitted, see above).  `errors` keeps
the error strings of failed diagnostics. -/
structure UIModel where
  toolbox : Toolbox
  commands : List DiagnosticCommand
  statuses : List Status
  outputs : List String
  errors : List (Option String)
  downloaded : Bool
  showDetails : Bool
  summarizing : Bool
  summary : String
  summaryErr : Option String
  summaryNotice : String
  done : Bool
  summarizerDisabled : Bool

deriving instance DecidableEq for Except

instance : Inhabited DiagnosticCommand :=
  ⟨{ command := "", display := "", spec := none, timeout := 0 }⟩

/-- The messages `model.Update` dispatches on.  `download` carries the
temporary directory that `Toolbox.Download` stored on the toolbox before the
message was emitted, plus the error (`downloadMsg.err`).  `result` is
`resultMsg`.  `llm` is `llmMsg` together with the outcome of the
`glamour.Render` call made on its payload.  `key` carries the key name;
window-size and mouse messages only touch the viewport and are folded into
`noop`. -/
inductive Msg
  | download (tempDir : String) (err : Option String)
  | result (index : Nat) (output : String) (err : Option String)
  | llm (err : Option String) (render : Except String String)
  | tick
  | key (k : String)
  | noop
deriving DecidableEq

/-- The `tea.Cmd`s a step returns to the runtime: quitting, launching the
executor for one diagnostic (`runCommandCmd`), invoking the summarizer
(`summarizeCmd`), printing an error (`fmt.Println`), or the next spinner
tick. -/
inductive Effect
  | quit
  | launch (index : Nat) (cmd : DiagnosticCommand)
  | summarize (systemPrompt : String) (commands : List SummaryCommand)
  | printErr (msg : String)
  | spinTick
deriving DecidableEq

/-- The "all commands finished" predicate evaluated after every `resultMsg`:
no status is `running` or `pending`. -/
def allDone (sts : List Status) : Bool :=
  sts.all (fun st => !(st == Status.running || st == Status.pending))

/-- The notice shown when no API key is configured. -/
def noApiKeyNotice : String :=
  "No API key provided; skipping AI summary.\nSet the API key with OPENAI_API_KEY, OPENROUTER_API_KEY, or ANTHROPIC_API_KEY."

/-- The error recorded when the playbook has no system prompt. -/
def systemPromptRequired : String := "system_prompt is required in playbook"

/-- The `sc` list built before calling `summarizeCmd`: one entry per command,
pairing its spec with its captured output. -/
def buildSummaryCommands (cmds : List DiagnosticCommand) (outs : List String) :
    List SummaryCommand :=
  (List.range cmds.length).map (fun i =>
    { description := (cmds[i]?).bind (fun c => c.spec),
      output := (outs[i]?).getD "" })

/-- `NewModel`: commands are fetched once (with the error discarded) — before
any download `t.tempDir = ""`, so this yields the empty list — and every slice
is initialised to the zero value.  `summarizerDisabled` abstracts
`NewSummarizer()` (whether any API key is configured). -/
def NewModel (tb : Toolbox) (fs : FS) (summarizerDisabled : Bool) : UIModel :=
  let pair := Toolbox.getDiagnosticCommands tb fs
  let cmds := match pair.2 with | .ok l => l | .error _ => []
  { toolbox := pair.1
    commands := cmds
    statuses := List.replicate cmds.length .pending
    outputs := List.replicate cmds.length ""
    errors := List.replicate cmds.length none
    downloaded := false
    showDetails := false
    summarizing := false
    summary := ""
    summaryErr := none
    summaryNotice := ""
    done := false
    summarizerDisabled := summarizerDisabled }

/-- `model.Update`.  Returns the new model and the `tea.Cmd` effects. -/
def update (fs : FS) (m : UIModel) : Msg → UIModel × List Effect
  | .download d err =>
    let m := { m with toolbox := { m.toolbox with tempDir := d } }
    match err with
    | some e => ({ m with done := true }, [.printErr e, .quit])
    | none =>
      let m := { m with downloaded := true }
      let pair := Toolbox.getDiagnosticCommands m.toolbox fs
      let m := { m with toolbox := pair.1 }
      match pair.2 with
      | .error e => ({ m with done := true }, [.printErr e.message, .quit])
      | .ok commands =>
        let n := commands.length
        ({ m with commands := commands
                  statuses := List.replicate n .running
                  outputs := List.replicate n ""
                  errors := List.replicate n none },
         (List.range n).map (fun i => Effect.launch i ((commands[i]?).getD default)))
  | .result i out err =>
    let m := { m with
      statuses := m.statuses.set i (if err.isSome then .error else .success)
      outputs := if err.isSome then m.outputs else m.outputs.set i out
      errors := if err.isSome then m.errors.set i err else m.errors }
    if allDone m.statuses then
      if !m.summarizing && m.summary == "" then
        if m.summarizerDisabled then
          ({ m with summaryNotice := noApiKeyNotice }, [])
        else
          let m := { m with summarizing := true }
          let sc := buildSummaryCommands m.commands m.outputs
          match m.toolbox.playbook with
          | none => ({ m with summaryErr := some systemPromptRequired }, [])
          | some pb =>
            if pb.systemPrompt == "" then
              ({ m with summaryErr := some systemPromptRequired }, [])
            else (m, [.summarize pb.systemPrompt sc])
      else (m, [])
    else (m, [])
  | .llm err render =>
    let m := { m with summarizing := false }
    match err with
    | some e => ({ m with summaryErr := some e }, [])
    | none =>
      match render with
      | .error e => ({ m with summaryErr := some e }, [])
      | .ok rendered => ({ m with summary := rendered }, [])
  | .tick => (m, [.spinTick])
  | .key k =>
    if k = "q" || k = "ctrl+c" || k = "esc" then (m, [.quit])
    else if k = "tab" then ({ m with showDetails := !m.showDetails }, [])
    else (m, [])
  | .noop => (m, [])

/-! ## Message-delivery discipline

A message can actually be delivered by the Bubble Tea runtime only under the
conditions below, which restate how the program produces messages:

* `Init` issues the download command exactly once, so a `downloadMsg` can only
  arrive while no download has completed (`downloaded = false`) and the loop
  has not already quit over a failed one (`done = false`);
* `runCommandCmd` for index `i` is issued exactly once — in the
  `downloadMsg` branch, which also sets `statuses[i] = running` — and nothing
  else ever writes index `i` before its single `resultMsg` arrives, so a
  `resultMsg` for `i` can only arrive while `statuses[i] = running`;
* `summarizeCmd` is issued when `summarizing` is set `true`, and only an
  `llmMsg` resets it, so an `llmMsg` arrives while `summarizing = true`. -/

/-- Whether a message can be delivered in state `m`. -/
def canDeliver (m : UIModel) : Msg → Bool
  | .download _ _ => !m.downloaded && !m.done
  | .result i _ _ => decide (m.statuses[i]? = some Status.running)
  | .llm _ _ => m.summarizing
  | _ => true

/-- A deliverable message sequence from state `m`. -/
def validSeq (fs : FS) : UIModel → List Msg → Bool
  | _, [] => true
  | m, msg :: rest => canDeliver m msg && validSeq fs (update fs m msg).1 rest

/-- The state after processing a list of messages. -/
def runState (fs : FS) : UIModel → List Msg → UIModel
  | m, [] => m
  | m, msg :: rest => runState fs (update fs m msg).1 rest

/-- Is this effect an invocation of the summarizer? -/
def Effect.isSummarize : Effect → Bool
  | .summarize _ _ => true
  | _ => false

/-- Is this effect the launch of a diagnostic executor? -/
def Effect.isLaunch : Effect → Bool
  | .launch _ _ => true
  | _ => false

/-- Total number of effects matching `p` emitted while processing `msgs`. -/
def countEff (p : Effect → Bool) (fs : FS) : UIModel → List Msg → Nat
  | _, [] => 0
  | m, msg :: rest =>
    ((update fs m msg).2.countP p) + countEff p fs (update fs m msg).1 rest

/-- Whether processing `msg` in state `m` evaluates the all-complete predicate
and finds it true (the predicate is evaluated, on the updated statuses, in the
`resultMsg` branch only). -/
def evalAllDone (fs : FS) (m : UIModel) : Msg → Bool
  | .result i out err => allDone ((update fs m (.result i out err)).1.statuses)
  | _ => false

/-- Number of message steps at which the all-complete predicate is evaluated
and found true. -/
def countAllDoneTrue (fs : FS) : UIModel → List Msg → Nat
  | _, [] => 0
  | m, msg :: rest =>
    (if evalAllDone fs m msg then 1 else 0) + countAllDoneTrue fs (update fs m msg).1 rest

/-! ## Exit path (`main` in `app/main.go`)

`main` exits non-zero only through `log.Fatal`, which happens when
`Program.Run` itself fails or the cobra command fails; a `tea.Quit` issued by
`Update` makes `Run` return with a `nil` error, so a run terminated by
`tea.Quit` — including the download-failure path — exits with status 0. -/

/-- Exit status of `main` as a function of the error returned by
`Program.Run` (a graceful `tea.Quit` yields `none`). -/
def mainExitCode (teaRunErr : Option String) : Nat :=
  match teaRunErr with
  | some _ => 1
  | none => 0

/-! ## Helper lemmas -/

/-- A non-empty accumulated word guarantees `fieldsGo` returns something. -/
theorem fieldsGo_ne_nil_of_cur (l : List Char) (cur : List Char) (h : cur ≠ []) :
    fieldsGo l cur ≠ [] := by
  induction l generalizing cur with
  | nil => simp [fieldsGo, h]
  | cons c cs ih =>
    simp only [fieldsGo]
    by_cases hc : goIsSpace c
    · simp only [hc, if_true]
      have : cur.isEmpty = false := by simpa [List.isEmpty_iff] using h
      simp [this]
    · simp only [hc, if_false]
      exact ih _ (by simp)

/-- A character list containing a non-space character yields at least one
field. -/
theorem fieldsGo_ne_nil (l : List Char) (cur : List Char)
    (h : ∃ c ∈ l, ¬goIsSpace c) : fieldsGo l cur ≠ [] := by
  induction l generalizing cur with
  | nil => simp at h
  | cons c cs ih =>
    simp only [fieldsGo]
    by_cases hc : goIsSpace c
    · obtain ⟨w, hw, hwns⟩ := h
      rcases List.mem_cons.mp hw with rfl | hw2
      · exact absurd hc hwns
      · simp only [hc, if_true]
        by_cases hcur : cur.isEmpty
        · simp only [hcur, if_true]
          exact ih [] ⟨w, hw2, hwns⟩
        · simp [hcur]
    · simp only [hc, if_false]
      exact fieldsGo_ne_nil_of_cur _ _ (by simp)

/-- If every character of `s` is white space, `TrimSpace` gives the empty
string. -/
theorem trimSpace_eq_empty (s : String) (h : ∀ c ∈ s.data, goIsSpace c) :
    trimSpace s = "" := by
  unfold trimSpace
  have h1 : s.data.dropWhile goIsSpace = [] := List.dropWhile_eq_nil_iff.mpr h
  simp [h1]
  rfl

/-- A string with non-blank trim has at least one command token. -/
theorem goFields_ne_nil (s : String) (h : trimSpace s ≠ "") : goFields s ≠ [] := by
  have hex : ∃ c ∈ s.data, ¬goIsSpace c := by
    by_contra hall
    push_neg at hall
    exact h (trimSpace_eq_empty s (by simpa using hall))
  unfold goFields fieldsList
  intro hmap
  exact fieldsGo_ne_nil s.data [] hex (by simpa using hmap)

/-! ## Claim C10 -/

/-- Claim C10: on a toolbox whose download has not succeeded (its temporary
directory is unset), `GetDiagnosticCommands` returns an empty command list and
no error — independently of the filesystem, which it does not touch — while
`ExecuteDiagnosticCommand` returns the "toolbox not downloaded yet" error
independently of the command and of any child-process behaviour. -/
theorem C10_not_downloaded_behaviour (t : Toolbox) (h : t.tempDir = "") :
    (∀ fs : FS, Toolbox.getDiagnosticCommands t fs = (t, .ok []))
    ∧ (∀ (cmd : DiagnosticCommand) (run : ExecOutcome),
        Toolbox.executeDiagnosticCommand t cmd run = .error .notDownloaded) := by
  constructor
  · intro fs
    simp [Toolbox.getDiagnosticCommands, h]
  · intro cmd run
    simp [Toolbox.executeDiagnosticCommand, h]

/-- Witness for C10 at a concrete not-yet-downloaded toolbox. -/
theorem C10_witness :
    (Toolbox.getDiagnosticCommands { url := "u", tempDir := "", playbook := none }
      { playbook := .error (.readFailed "x"), storeEntries := none, stat := fun _ => none } =
      ({ url := "u", tempDir := "", playbook := none }, .ok []))
    ∧ (Toolbox.executeDiagnosticCommand { url := "u", tempDir := "", playbook := none }
        { command := "uptime", display := "d", spec := none, timeout := 0 }
        { output := "o", combinedOutputErr := false, ctxDeadlineExceeded := false } =
        .error .notDownloaded) :=
  ⟨(C10_not_downloaded_behaviour _ rfl).1 _, (C10_not_downloaded_behaviour _ rfl).2 _ _⟩

/-! ## Claim C4 -/

/-- Claim C4: for an executed command (non-blank invocation string) whose
deadline has expired, `ExecuteDiagnosticCommand` returns a non-error result
carrying the (bounded) output produced before expiry, even if the process
exited with an error; conversely the exit-status error `commandFailed` is
returned only when the deadline has not expired. -/
theorem C4_deadline_suppresses_exit_error (t : Toolbox) (cmd : DiagnosticCommand)
    (run : ExecOutcome) (ht : t.tempDir ≠ "") (hcmd : trimSpace cmd.command ≠ "") :
    (run.ctxDeadlineExceeded = true →
      Toolbox.executeDiagnosticCommand t cmd run = .ok (truncateOutput run.output))
    ∧ (∀ d o, Toolbox.executeDiagnosticCommand t cmd run = .error (.commandFailed d o) →
        run.ctxDeadlineExceeded = false) := by
  have hf := goFields_ne_nil cmd.command hcmd
  unfold Toolbox.executeDiagnosticCommand
  simp only [ht, if_false, hcmd]
  cases hfc : goFields cmd.command with
  | nil => exact absurd hfc hf
  | cons p ps =>
    constructor
    · intro hd
      simp [hd]
    · intro d o
      by_cases he : run.combinedOutputErr && !run.ctxDeadlineExceeded
      · intro _
        rcases Bool.and_eq_true .. |>.mp he with ⟨_, hnd⟩
        simpa using hnd
      · simp [he]

/-- Witness for C4: a command that timed out with a non-zero exit still yields
its partial output as a non-error result. -/
theorem C4_witness :
    trimSpace "sleep 60" ≠ "" ∧
    Toolbox.executeDiagnosticCommand
      { url := "u", tempDir := "/tmp/toolbox_1", playbook := none }
      { command := "sleep 60", display := "Long sleep", spec := none, timeout := 1000000000 }
      { output := "partial\n", combinedOutputErr := true, ctxDeadlineExceeded := true } =
      .ok (truncateOutput "partial\n") :=
  ⟨by decide,
   (C4_deadline_suppresses_exit_error _ _ _ (by decide) (by decide)).1 rfl⟩

/-! ## Claim C1 -/

/-- Claim C1 (code bug): the extraction loop of `Toolbox.Download` performs no
containment check.  An archive entry named `../evil` is extracted without any
`PathTraversal` error (the loop does not even define one): the loop's
mutations are `MkdirAll` of the parent and creation of the file itself, both
at `/tmp/evil` — outside the working directory `/tmp/toolbox_x` — so a write
escapes the freshly created working directory, contradicting the claim. -/
theorem C1_extraction_escapes_working_directory :
    extractArchive ["tmp", "toolbox_x"]
      [{ name := ["..", "evil"], typeflag := .reg, mode := 420, linkname := "" }] =
      ([.mkdirAll ["tmp"], .createFile ["tmp", "evil"] 420], none)
    ∧ insideDir ["tmp", "toolbox_x"] ["tmp", "evil"] = false := by
  decide

/-! ## Resolution characterisation -/

/-- An `entryMatch` hit means: the entry is a directory and the stat test
passes on the matched candidate. -/
theorem entryMatch_spec (fs : FS) (sd bn : String) (e : DirEntry) (br : Branch)
    (h : entryMatch fs sd bn e = some br) :
    e.isDir = true ∧ statIsExecFile (fs.stat (candidatePath sd e.name br bn)) = true := by
  unfold entryMatch at h
  by_cases hd : e.isDir
  · simp only [hd, Bool.not_true, Bool.false_eq_true, if_false] at h
    by_cases h1 : statIsExecFile (fs.stat (candidatePath sd e.name .bin bn))
    · simp only [h1, if_true, Option.some.injEq] at h
      subst h
      exact ⟨hd, h1⟩
    · simp only [h1, Bool.false_eq_true, if_false] at h
      by_cases h2 : statIsExecFile (fs.stat (candidatePath sd e.name .sbin bn))
      · simp only [h2, if_true, Option.some.injEq] at h
        subst h
        exact ⟨hd, h2⟩
      · simp [h2] at h
  · simp [hd] at h

/-- A `bin` hit of `entryMatch` also records that the `sbin` location was not
even consulted (the `bin` location takes priority); an `sbin` hit records that
the `bin` location failed the test. -/
theorem entryMatch_sbin_only_after_bin (fs : FS) (sd bn : String) (e : DirEntry)
    (h : entryMatch fs sd bn e = some .sbin) :
    statIsExecFile (fs.stat (candidatePath sd e.name .bin bn)) = false := by
  unfold entryMatch at h
  by_cases hd : e.isDir
  · simp only [hd, Bool.not_true, Bool.false_eq_true, if_false] at h
    by_cases h1 : statIsExecFile (fs.stat (candidatePath sd e.name .bin bn))
    · simp [h1] at h
    · simpa using h1
  · simp [hd] at h

/-- Characterisation of the store scan: a successful resolution chooses the
first entry, in listing order, for which `entryMatch` succeeds, and the result
path is the matched candidate. -/
theorem resolveInEntries_eq_some (fs : FS) (sd bn : String) :
    ∀ (es : List DirEntry) (p : String), resolveInEntries fs sd bn es = some p →
      ∃ pre e post br, es = pre ++ e :: post
        ∧ entryMatch fs sd bn e = some br
        ∧ (∀ e2 ∈ pre, entryMatch fs sd bn e2 = none)
        ∧ p = candidatePath sd e.name br bn := by
  intro es
  induction es with
  | nil => intro p h; simp [resolveInEntries] at h
  | cons e rest ih =>
    intro p h
    unfold resolveInEntries at h
    by_cases hd : e.isDir
    · simp only [hd, Bool.not_true, Bool.false_eq_true, if_false] at h
      by_cases h1 : statIsExecFile (fs.stat (candidatePath sd e.name .bin bn))
      · simp only [h1, if_true, Option.some.injEq] at h
        exact ⟨[], e, rest, .bin, rfl, by simp [entryMatch, hd, h1], by simp, h.symm⟩
      · simp only [h1, Bool.false_eq_true, if_false] at h
        by_cases h2 : statIsExecFile (fs.stat (candidatePath sd e.name .sbin bn))
        · simp only [h2, if_true, Option.some.injEq] at h
          exact ⟨[], e, rest, .sbin, rfl, by simp [entryMatch, hd, h1, h2], by simp, h.symm⟩
        · simp only [h2, Bool.false_eq_true, if_false] at h
          obtain ⟨pre, e3, post, br, hsplit, hm, hpre, hp⟩ := ih p h
          refine ⟨e :: pre, e3, post, br, by simp [hsplit], hm, ?_, hp⟩
          intro e2 he2
          rcases List.mem_cons.mp he2 with rfl | h5
          · simp [entryMatch, hd, h1, h2]
          · exact hpre _ h5
    · simp only [Bool.eq_false_iff] at hd
      rw [if_pos (by simp [hd])] at h
      obtain ⟨pre, e3, post, br, hsplit, hm, hpre, hp⟩ := ih p h
      refine ⟨e :: pre, e3, post, br, by simp [hsplit], hm, ?_, hp⟩
      intro e2 he2
      rcases List.mem_cons.mp he2 with rfl | h5
      · simp [entryMatch, hd]
      · exact hpre _ h5

/-- Characterisation of a successful `buildCommands` run: one output per
input command, in order, each holding the wrapped invocation for its resolved
binary. -/
theorem buildCommands_ok (fs : FS) (sd pt : String) :
    ∀ (cmds : List PlaybookCommand) (res : List DiagnosticCommand),
      buildCommands fs sd pt cmds = .ok res →
      res.length = cmds.length ∧
      ∀ i (hc : i < cmds.length) (hr : i < res.length),
        ∃ bn args resolved,
          goFields (cmds.get ⟨i, hc⟩).command = bn :: args ∧
          resolveBinary fs sd bn = some resolved ∧
          res.get ⟨i, hr⟩ = { command := buildCmdStr pt resolved args,
                              display := (cmds.get ⟨i, hc⟩).description,
                              spec := some (cmds.get ⟨i, hc⟩),
                              timeout := effectiveTimeout (cmds.get ⟨i, hc⟩) } := by
  intro cmds
  induction cmds with
  | nil =>
    intro res h
    simp only [buildCommands, Except.ok.injEq] at h
    subst h
    exact ⟨rfl, by intro i hc; simp at hc⟩
  | cons c rest ih =>
    intro res h
    unfold buildCommands at h
    cases hf : goFields c.command with
    | nil => simp [hf] at h
    | cons bn args =>
      simp only [hf] at h
      cases hrb : resolveBinary fs sd bn with
      | none => simp [hrb] at h
      | some resolved =>
        simp only [hrb] at h
        cases hb : buildCommands fs sd pt rest with
        | error e => simp [hb] at h
        | ok tail =>
          simp only [hb, Except.ok.injEq] at h
          subst h
          obtain ⟨hlen, htail⟩ := ih tail hb
          constructor
          · simp [hlen]
          · intro i hc hr
            match i with
            | 0 => exact ⟨bn, args, resolved, hf, hrb, rfl⟩
            | i + 1 =>
              exact htail i (by simpa using hc) (by simpa using hr)

/-- The wrapped invocation string is exactly the sandbox-wrapper tokens,
the resolved binary path, and the original arguments, joined by single
spaces. -/
theorem buildCmdStr_tokens (d resolved : String) (args : List String) :
    buildCmdStr (prootInvoke d) resolved args =
      goJoin " " ([prootPathOf d, "-b", toolboxPathOf d ++ "/nix:/nix", resolved] ++ args) := by
  have hb : (" -b " : String) = " " ++ "-b" ++ " " := rfl
  cases args with
  | nil =>
    simp only [buildCmdStr, List.length_nil, gt_iff_lt, Nat.lt_irrefl, if_false,
      List.append_nil, goJoin, prootInvoke, hb]
    simp only [String.append_assoc]
  | cons x rest =>
    simp only [buildCmdStr, List.length_cons, List.cons_append, List.nil_append,
      gt_iff_lt, Nat.succ_pos, if_true, goJoin, prootInvoke, hb]
    simp only [String.append_assoc]

/-- Unfolding of `GetDiagnosticCommands` on a downloaded toolbox with a
readable playbook. -/
theorem getDiagnosticCommands_eq (t : Toolbox) (fs : FS) (cfg : PlaybookConfig)
    (ht : t.tempDir ≠ "") (hpb : fs.playbook = .ok cfg) :
    Toolbox.getDiagnosticCommands t fs =
      ({ t with playbook := some cfg },
        buildCommands fs (storeDirOf t.tempDir) (prootInvoke t.tempDir) cfg.commands) := by
  simp [Toolbox.getDiagnosticCommands, ht, hpb]

/-! ## Claim C7 -/

/-- Claim C7: a successful resolution yields exactly one `DiagnosticCommand`
per manifest entry, in manifest order; the binary chosen for each diagnostic
is the `bin/<name>` or `sbin/<name>` candidate — a non-directory passing the
execute-bit test — inside the first store entry, in directory-listing order,
for which such a candidate exists, with `bin` tried before `sbin` within each
entry. -/
theorem C7_resolution_first_match_in_order (t : Toolbox) (fs : FS) (cfg : PlaybookConfig)
    (res : List DiagnosticCommand)
    (ht : t.tempDir ≠ "") (hpb : fs.playbook = .ok cfg)
    (hok : (Toolbox.getDiagnosticCommands t fs).2 = .ok res) :
    res.length = cfg.commands.length ∧
    ∀ i (hc : i < cfg.commands.length) (hr : i < res.length),
      (res.get ⟨i, hr⟩).spec = some (cfg.commands.get ⟨i, hc⟩) ∧
      ∃ bn args resolved,
        goFields (cfg.commands.get ⟨i, hc⟩).command = bn :: args ∧
        resolveBinary fs (storeDirOf t.tempDir) bn = some resolved ∧
        (res.get ⟨i, hr⟩).command = buildCmdStr (prootInvoke t.tempDir) resolved args ∧
        ∃ es pre e post br,
          fs.storeEntries = some es ∧
          es = pre ++ e :: post ∧
          e.isDir = true ∧
          entryMatch fs (storeDirOf t.tempDir) bn e = some br ∧
          (∀ e2 ∈ pre, entryMatch fs (storeDirOf t.tempDir) bn e2 = none) ∧
          resolved = candidatePath (storeDirOf t.tempDir) e.name br bn ∧
          statIsExecFile (fs.stat resolved) = true := by
  rw [getDiagnosticCommands_eq t fs cfg ht hpb] at hok
  obtain ⟨hlen, hall⟩ := buildCommands_ok fs (storeDirOf t.tempDir) (prootInvoke t.tempDir)
    cfg.commands res hok
  refine ⟨hlen, ?_⟩
  intro i hc hr
  obtain ⟨bn, args, resolved, hf, hrb, hres⟩ := hall i hc hr
  refine ⟨by rw [hres], bn, args, resolved, hf, hrb, by rw [hres], ?_⟩
  unfold resolveBinary at hrb
  cases hes : fs.storeEntries with
  | none => rw [hes] at hrb; cases hrb
  | some es =>
    rw [hes] at hrb
    obtain ⟨pre, e, post, br, hsplit, hm, hpre, hp⟩ :=
      resolveInEntries_eq_some fs (storeDirOf t.tempDir) bn es resolved hrb
    obtain ⟨hdir, hstat⟩ := entryMatch_spec fs (storeDirOf t.tempDir) bn e br hm
    exact ⟨es, pre, e, post, br, rfl, hsplit, hdir, hm, hpre, hp, by rw [hp]; exact hstat⟩

/-- Witness data for the resolution claims: a two-entry store where only the
second entry provides the binary, under `bin`. -/
def fsW : FS :=
  { playbook := .ok
      { id := "w", nixpkgsVersion := "v", nixpkgsPackages := ["procps"],
        systemPrompt := "You are an expert.",
        commands := [{ command := "uptime", description := "Average load", timeoutSeconds := 5 }] },
    storeEntries := some [{ name := "aaa", isDir := true }, { name := "bbb", isDir := true }],
    stat := fun p =>
      if p = "/tmp/tb/toolbox/nix/store/bbb/bin/uptime" then some { isDir := false, mode := 493 }
      else none }

/-- The playbook configuration inside `fsW`. -/
def cfgW : PlaybookConfig :=
  { id := "w", nixpkgsVersion := "v", nixpkgsPackages := ["procps"],
    systemPrompt := "You are an expert.",
    commands := [{ command := "uptime", description := "Average load", timeoutSeconds := 5 }] }

/-- A toolbox that has not yet downloaded anything. -/
def tbW : Toolbox := { url := "u", tempDir := "", playbook := none }

/-- The single command `fsW` resolves to. -/
def resW : List DiagnosticCommand :=
  [{ command := "/tmp/tb/toolbox/proot -b /tmp/tb/toolbox/nix:/nix /tmp/tb/toolbox/nix/store/bbb/bin/uptime",
     display := "Average load",
     spec := some { command := "uptime", description := "Average load", timeoutSeconds := 5 },
     timeout := 5000000000 }]

/-- Witness for C7 at the concrete store `fsW`. -/
theorem C7_witness :
    (Toolbox.getDiagnosticCommands { tbW with tempDir := "/tmp/tb" } fsW).2 = .ok resW ∧
    resW.length = cfgW.commands.length ∧
    ∀ i (hc : i < cfgW.commands.length) (hr : i < resW.length),
      (resW.get ⟨i, hr⟩).spec = some (cfgW.commands.get ⟨i, hc⟩) ∧
      ∃ bn args resolved,
        goFields (cfgW.commands.get ⟨i, hc⟩).command = bn :: args ∧
        resolveBinary fsW (storeDirOf "/tmp/tb") bn = some resolved ∧
        (resW.get ⟨i, hr⟩).command = buildCmdStr (prootInvoke "/tmp/tb") resolved args ∧
        ∃ es pre e post br,
          fsW.storeEntries = some es ∧
          es = pre ++ e :: post ∧
          e.isDir = true ∧
          entryMatch fsW (storeDirOf "/tmp/tb") bn e = some br ∧
          (∀ e2 ∈ pre, entryMatch fsW (storeDirOf "/tmp/tb") bn e2 = none) ∧
          resolved = candidatePath (storeDirOf "/tmp/tb") e.name br bn ∧
          statIsExecFile (fsW.stat resolved) = true :=
  ⟨by decide,
   C7_resolution_first_match_in_order { tbW with tempDir := "/tmp/tb" } fsW cfgW resW
     (by decide) (by decide) (by decide)⟩

/-! ## Claim C8 -/

/-- Claim C8: every resolved invocation string is the sandbox-wrapper tokens
(`proot` path, `-b`, bind spec), then the absolute resolved binary path, then
the template's original arguments in order, all joined by single spaces — with
no quoting or escaping applied to any token. -/
theorem C8_invocation_is_space_joined_tokens (t : Toolbox) (fs : FS) (cfg : PlaybookConfig)
    (res : List DiagnosticCommand)
    (ht : t.tempDir ≠ "") (hpb : fs.playbook = .ok cfg)
    (hok : (Toolbox.getDiagnosticCommands t fs).2 = .ok res) :
    ∀ i (hc : i < cfg.commands.length) (hr : i < res.length),
      ∃ bn args resolved,
        goFields (cfg.commands.get ⟨i, hc⟩).command = bn :: args ∧
        resolveBinary fs (storeDirOf t.tempDir) bn = some resolved ∧
        (res.get ⟨i, hr⟩).command =
          goJoin " "
            ([prootPathOf t.tempDir, "-b", toolboxPathOf t.tempDir ++ "/nix:/nix", resolved]
              ++ args) := by
  rw [getDiagnosticCommands_eq t fs cfg ht hpb] at hok
  obtain ⟨hlen, hall⟩ := buildCommands_ok fs (storeDirOf t.tempDir) (prootInvoke t.tempDir)
    cfg.commands res hok
  intro i hc hr
  obtain ⟨bn, args, resolved, hf, hrb, hres⟩ := hall i hc hr
  refine ⟨bn, args, resolved, hf, hrb, ?_⟩
  rw [hres]
  exact buildCmdStr_tokens t.tempDir resolved args

/-- Witness for C8 at the concrete store `fsW`. -/
theorem C8_witness :
    (Toolbox.getDiagnosticCommands { tbW with tempDir := "/tmp/tb" } fsW).2 = .ok resW ∧
    ∀ i (hc : i < cfgW.commands.length) (hr : i < resW.length),
      ∃ bn args resolved,
        goFields (cfgW.commands.get ⟨i, hc⟩).command = bn :: args ∧
        resolveBinary fsW (storeDirOf "/tmp/tb") bn = some resolved ∧
        (resW.get ⟨i, hr⟩).command =
          goJoin " "
            ([prootPathOf "/tmp/tb", "-b", toolboxPathOf "/tmp/tb" ++ "/nix:/nix", resolved]
              ++ args) :=
  ⟨by decide,
   C8_invocation_is_space_joined_tokens { tbW with tempDir := "/tmp/tb" } fsW cfgW resW
     (by decide) (by decide) (by decide)⟩

/-! ## Claim C3 -/

/-- If every manifest command tokenises non-empty and at least one of them
has no match in the package store, the whole batch fails with the
binary-not-found error. -/
theorem buildCommands_binaryNotFound (fs : FS) (sd pt : String) :
    ∀ (cmds : List PlaybookCommand),
      (∀ c ∈ cmds, goFields c.command ≠ []) →
      (∃ c ∈ cmds, ∃ bn args, goFields c.command = bn :: args ∧ resolveBinary fs sd bn = none) →
      ∃ b, buildCommands fs sd pt cmds = .error (.binaryNotFound b) := by
  intro cmds
  induction cmds with
  | nil => intro _ hfail; simp at hfail
  | cons c rest ih =>
    intro hfields hfail
    cases hf : goFields c.command with
    | nil => exact absurd hf (hfields c (List.mem_cons_self c rest))
    | cons bn args =>
      cases hrb : resolveBinary fs sd bn with
      | none => exact ⟨bn, by simp [buildCommands, hf, hrb]⟩
      | some resolved =>
        have hrest : ∃ c2 ∈ rest, ∃ bn2 args2,
            goFields c2.command = bn2 :: args2 ∧ resolveBinary fs sd bn2 = none := by
          obtain ⟨c2, hmem, bn2, args2, hf2, hrb2⟩ := hfail
          rcases List.mem_cons.mp hmem with rfl | hmem2
          · rw [hf] at hf2
            cases hf2
            rw [hrb] at hrb2
            cases hrb2
          · exact ⟨c2, hmem2, bn2, args2, hf2, hrb2⟩
        obtain ⟨b, hb⟩ := ih (fun c2 h2 => hfields c2 (List.mem_cons_of_mem _ h2)) hrest
        exact ⟨b, by simp [buildCommands, hf, hrb, hb]⟩

/-- Claim C3: a manifest with some diagnostic whose binary matches no
package-store entry fails resolution as a whole with the binary-not-found
error (no partial command list is produced), and the orchestrator, upon the
download message, quits without launching a single executor. -/
theorem C3_binaryNotFound_aborts_batch (t : Toolbox) (fs : FS) (cfg : PlaybookConfig)
    (m : UIModel) (d : String)
    (hd : d ≠ "") (hpb : fs.playbook = .ok cfg)
    (hfields : ∀ c ∈ cfg.commands, goFields c.command ≠ [])
    (hfail : ∃ c ∈ cfg.commands, ∃ bn args,
        goFields c.command = bn :: args ∧ resolveBinary fs (storeDirOf d) bn = none) :
    (∃ b, (Toolbox.getDiagnosticCommands { t with tempDir := d } fs).2 =
        .error (.binaryNotFound b)) ∧
    (∀ e ∈ (update fs m (.download d none)).2, e.isLaunch = false) ∧
    Effect.quit ∈ (update fs m (.download d none)).2 ∧
    (update fs m (.download d none)).1.done = true := by
  obtain ⟨b, hb⟩ := buildCommands_binaryNotFound fs (storeDirOf d) (prootInvoke d)
    cfg.commands hfields hfail
  have hget : ∀ t2 : Toolbox, t2.tempDir = d →
      Toolbox.getDiagnosticCommands t2 fs =
        ({ t2 with playbook := some cfg }, .error (.binaryNotFound b)) := by
    intro t2 h2
    rw [getDiagnosticCommands_eq t2 fs cfg (by rw [h2]; exact hd) hpb, h2, hb]
  refine ⟨⟨b, by rw [hget _ rfl]⟩, ?_, ?_, ?_⟩ <;>
    simp [update, hget { m.toolbox with tempDir := d } rfl, Effect.isLaunch]

/-- Witness data for C3: a store that offers no binaries at all. -/
def fsBad : FS :=
  { playbook := .ok
      { id := "w", nixpkgsVersion := "v", nixpkgsPackages := [],
        systemPrompt := "p",
        commands := [{ command := "uptime", description := "load", timeoutSeconds := 0 },
                     { command := "nonexistent", description := "nope", timeoutSeconds := 0 }] },
    storeEntries := some [{ name := "aaa", isDir := true }],
    stat := fun _ => none }

/-- Witness for C3 on `fsBad`. -/
theorem C3_witness :
    (∃ b, (Toolbox.getDiagnosticCommands { tbW with tempDir := "/tmp/tb" } fsBad).2 =
        .error (.binaryNotFound b)) ∧
    (∀ e ∈ (update fsBad (NewModel tbW fsBad false) (.download "/tmp/tb" none)).2,
        e.isLaunch = false) ∧
    Effect.quit ∈ (update fsBad (NewModel tbW fsBad false) (.download "/tmp/tb" none)).2 ∧
    (update fsBad (NewModel tbW fsBad false) (.download "/tmp/tb" none)).1.done = true := by
  have h := C3_binaryNotFound_aborts_batch tbW fsBad
    { id := "w", nixpkgsVersion := "v", nixpkgsPackages := [],
      systemPrompt := "p",
      commands := [{ command := "uptime", description := "load", timeoutSeconds := 0 },
                   { command := "nonexistent", description := "nope", timeoutSeconds := 0 }] }
    (NewModel tbW fsBad false) "/tmp/tb"
    (by decide) (by decide) (by decide)
    ⟨{ command := "uptime", description := "load", timeoutSeconds := 0 }, by decide,
      "uptime", [], by decide, by decide⟩
  exact h

/-! ## Output bounding (claim C5) -/

/-- Rebuilding a string from its own characters is the identity. -/
theorem asString_data (s : String) : s.data.asString = s := rfl

/-- A newline-free character list splits into itself alone. -/
theorem splitNl_no_nl : ∀ (w : List Char), (∀ c ∈ w, c ≠ '\n') → splitNl w = [w] := by
  intro w
  induction w with
  | nil => intro _; rfl
  | cons c cs ih =>
    intro h
    have hc : c ≠ '\n' := h c (List.mem_cons_self c cs)
    have ht : splitNl cs = [cs] := ih (fun x hx => h x (List.mem_cons_of_mem _ hx))
    simp [splitNl, hc, ht]

/-- Splitting a newline-free chunk followed by a newline peels the chunk. -/
theorem splitNl_append (w r : List Char) (h : ∀ c ∈ w, c ≠ '\n') :
    splitNl (w ++ '\n' :: r) = w :: splitNl r := by
  induction w with
  | nil => simp [splitNl]
  | cons c cs ih =>
    have hc : c ≠ '\n' := h c (List.mem_cons_self c cs)
    have ht := ih (fun x hx => h x (List.mem_cons_of_mem _ hx))
    simp [splitNl, hc, ht]

/-- `strings.Split` is the inverse of `strings.Join` on newline-free,
non-empty line lists. -/
theorem goSplit_goJoin : ∀ (ls : List String), ls ≠ [] →
    (∀ s ∈ ls, ∀ c ∈ s.data, c ≠ '\n') →
    goSplitLines (goJoin "\n" ls) = ls := by
  intro ls
  induction ls with
  | nil => intro h; exact absurd rfl h
  | cons x rest ih =>
    intro _ hnl
    cases rest with
    | nil =>
      have hx : splitNl x.data = [x.data] :=
        splitNl_no_nl x.data (hnl x (List.mem_cons_self x []))
      simp [goJoin, goSplitLines, hx, asString_data]
    | cons y rest2 =>
      have hdata : (x ++ "\n" ++ goJoin "\n" (y :: rest2)).data =
          x.data ++ '\n' :: (goJoin "\n" (y :: rest2)).data := by
        simp [String.data_append]
      have hx : ∀ c ∈ x.data, c ≠ '\n' := hnl x (List.mem_cons_self x (y :: rest2))
      have hih := ih (by simp) (fun s hs => hnl s (List.mem_cons_of_mem _ hs))
      calc goSplitLines (goJoin "\n" (x :: y :: rest2))
          = (splitNl (x.data ++ '\n' :: (goJoin "\n" (y :: rest2)).data)).map List.asString := by
            simp [goSplitLines, goJoin, hdata]
        _ = x :: goSplitLines (goJoin "\n" (y :: rest2)) := by
            rw [splitNl_append _ _ hx]
            simp [goSplitLines, asString_data]
        _ = x :: y :: rest2 := by rw [hih]

/-- The kept lines are a suffix of the split output of the declared length. -/
theorem truncLines_spec (lines : List String) :
    truncLines lines <:+ lines ∧ (truncLines lines).length = min lines.length 100 := by
  unfold truncLines
  by_cases h : lines.length > 100
  · simp only [h, if_true]
    refine ⟨List.drop_suffix _ _, ?_⟩
    rw [List.length_drop]
    omega
  · simp only [h, if_false]
    exact ⟨List.suffix_rfl, by omega⟩

/-- Join after appending a final element. -/
theorem goJoin_append_last (sep y : String) : ∀ (ls : List String), ls ≠ [] →
    goJoin sep (ls ++ [y]) = goJoin sep ls ++ sep ++ y := by
  intro ls
  induction ls with
  | nil => intro h; exact absurd rfl h
  | cons x rest ih =>
    intro _
    cases rest with
    | nil => simp [goJoin]
    | cons z rest2 =>
      have hr := ih (by simp)
      simp only [List.cons_append] at hr ⊢
      simp only [goJoin, hr]
      simp [String.append_assoc]

/-- `strings.Split` after `strings.Join` with a trailing newline appended:
the original lines plus one empty final segment. -/
theorem goSplit_join_trailing (ls : List String) (h0 : ls ≠ [])
    (hnl : ∀ s ∈ ls, ∀ c ∈ s.data, c ≠ '\n') :
    goSplitLines (goJoin "\n" ls ++ "\n") = ls ++ [""] := by
  have hj : goJoin "\n" ls ++ "\n" = goJoin "\n" (ls ++ [""]) := by
    rw [goJoin_append_last "\n" "" ls h0]
    simp
  rw [hj]
  refine goSplit_goJoin _ (by simp) ?_
  intro s hs
  rcases List.mem_append.mp hs with h | h
  · exact hnl s h
  · simp only [List.mem_singleton] at h
    subst h
    intro c hc
    simp at hc

/-- The 500 distinct output lines used to test output bounding. -/
def c5Lines : List String := (List.range 500).map (fun i => Nat.repr i)

/-- A downloaded toolbox for the output-bounding scenario. -/
def tbC5 : Toolbox := { url := "u", tempDir := "/tmp/tb", playbook := none }

/-- A resolved command whose child emits 500 lines. -/
def cmdC5 : DiagnosticCommand :=
  { command := "seq 1 500", display := "Count", spec := none, timeout := 5000000000 }

set_option maxRecDepth 20000 in
/-- None of the 500 line strings contains a newline. -/
theorem c5NoNl : ∀ s ∈ c5Lines, ∀ c ∈ s.data, c ≠ '\n' := by
  have h : c5Lines.all (fun s => s.data.all (fun c => decide (c ≠ '\n'))) = true := by decide
  intro s hs c hc
  have h2 := List.all_eq_true.mp h s hs
  have h3 := List.all_eq_true.mp h2 c hc
  exact of_decide_eq_true h3

/-- There are 500 lines. -/
theorem c5Lines_length : c5Lines.length = 500 := by simp [c5Lines]

/-- The last 99 lines form a non-empty list. -/
theorem c5_drop401_ne_nil : c5Lines.drop 401 ≠ [] := by
  intro h
  have := congrArg List.length h
  simp [c5Lines_length] at this

/-- Successful-execution reduction of `ExecuteDiagnosticCommand`. -/
theorem executeDiagnosticCommand_ok (t : Toolbox) (cmd : DiagnosticCommand)
    (run : ExecOutcome) (h1 : t.tempDir ≠ "") (h2 : trimSpace cmd.command ≠ "")
    (h3 : run.combinedOutputErr = false) :
    Toolbox.executeDiagnosticCommand t cmd run = .ok (truncateOutput run.output) := by
  have hf := goFields_ne_nil cmd.command h2
  unfold Toolbox.executeDiagnosticCommand
  simp only [h1, h2, if_false]
  cases hfc : goFields cmd.command with
  | nil => exact absurd hfc hf
  | cons p ps => simp [h3]

/-- What the bounding step does to 500 newline-terminated lines: the last 100
split segments are the last 99 lines plus the empty segment after the final
newline, so the captured result is the last 99 lines followed by a trailing
newline. -/
theorem truncateOutput_c5_trailing :
    truncateOutput (goJoin "\n" c5Lines ++ "\n") = goJoin "\n" (c5Lines.drop 401) ++ "\n" := by
  unfold truncateOutput
  rw [goSplit_join_trailing c5Lines
    (by intro h; have hl := c5Lines_length; rw [h] at hl; simp at hl) c5NoNl]
  have hlen : (c5Lines ++ [""]).length = 501 := by simp [c5Lines_length]
  unfold truncLines
  rw [hlen]
  simp only [gt_iff_lt, Nat.lt_irrefl]
  norm_num
  rw [List.drop_append_eq_append_drop, c5Lines_length]
  norm_num
  rw [goJoin_append_last "\n" "" _ c5_drop401_ne_nil]
  simp

/-- Without a trailing newline, the captured result is exactly the last 100
lines. -/
theorem truncateOutput_c5_plain :
    truncateOutput (goJoin "\n" c5Lines) = goJoin "\n" (c5Lines.drop 400) := by
  unfold truncateOutput
  rw [goSplit_goJoin c5Lines
    (by intro h; have hl := c5Lines_length; rw [h] at hl; simp at hl) c5NoNl]
  unfold truncLines
  rw [c5Lines_length]
  norm_num

set_option maxRecDepth 20000 in
/-- First segments of the three candidate line lists. -/
theorem c5_heads :
    (c5Lines.drop 401 ++ [""]).head? = some "401"
    ∧ (c5Lines.drop 400).head? = some "400"
    ∧ (c5Lines.drop 400 ++ [""]).head? = some "400" := by
  refine ⟨?_, ?_, ?_⟩ <;> decide

/-- Claim C5 fails on the code: for a command emitting 500 newline-terminated
lines, the captured result is the last 99 lines (plus the trailing newline),
not the last 100 — line number 401 of the 500 is discarded.  The captured
string differs from the join of the last 100 lines both without and with a
trailing newline. -/
theorem C5_counterexample :
    Toolbox.executeDiagnosticCommand tbC5 cmdC5
      { output := goJoin "\n" c5Lines ++ "\n", combinedOutputErr := false,
        ctxDeadlineExceeded := false } =
      .ok (goJoin "\n" (c5Lines.drop 401) ++ "\n")
    ∧ goJoin "\n" (c5Lines.drop 401) ++ "\n" ≠ goJoin "\n" (c5Lines.drop 400)
    ∧ goJoin "\n" (c5Lines.drop 401) ++ "\n" ≠ goJoin "\n" (c5Lines.drop 400) ++ "\n" := by
  have hnl401 : ∀ s ∈ c5Lines.drop 401, ∀ c ∈ s.data, c ≠ '\n' :=
    fun s hs => c5NoNl s (List.drop_subset _ _ hs)
  have hnl400 : ∀ s ∈ c5Lines.drop 400, ∀ c ∈ s.data, c ≠ '\n' :=
    fun s hs => c5NoNl s (List.drop_subset _ _ hs)
  have h400ne : c5Lines.drop 400 ≠ [] := by
    intro h
    have := congrArg List.length h
    simp [c5Lines_length] at this
  refine ⟨?_, ?_, ?_⟩
  · rw [executeDiagnosticCommand_ok tbC5 cmdC5 _ (by decide) (by decide) rfl]
    exact congrArg Except.ok truncateOutput_c5_trailing
  · intro heq
    have hs1 := goSplit_join_trailing _ c5_drop401_ne_nil hnl401
    have hs2 := goSplit_goJoin _ h400ne hnl400
    have h2 := congrArg goSplitLines heq
    rw [hs1, hs2] at h2
    have h3 := congrArg List.head? h2
    rw [c5_heads.1, c5_heads.2.1] at h3
    exact absurd (Option.some.injEq .. ▸ h3) (by decide)
  · intro heq
    have hs1 := goSplit_join_trailing _ c5_drop401_ne_nil hnl401
    have hs2 := goSplit_join_trailing _ h400ne hnl400
    have h2 := congrArg goSplitLines heq
    rw [hs1, hs2] at h2
    have h3 := congrArg List.head? h2
    rw [c5_heads.1, c5_heads.2.2] at h3
    exact absurd (Option.some.injEq .. ▸ h3) (by decide)

set_option maxRecDepth 40000 in
/-- Claim C5 as amended: the captured output keeps at most the last 100
newline-split segments — a suffix of the split output of length
`min n 100` — and rejoins them; for a command producing 500 newline-terminated
lines this captures the last 99 lines followed by the trailing newline, while
exactly the last 100 lines are captured only when the output lacks the final
newline. -/
theorem C5_amended_last_100_segments :
    (∀ lines : List String,
      truncLines lines <:+ lines ∧ (truncLines lines).length = min lines.length 100)
    ∧ Toolbox.executeDiagnosticCommand tbC5 cmdC5
        { output := goJoin "\n" c5Lines ++ "\n", combinedOutputErr := false,
          ctxDeadlineExceeded := false } =
        .ok (goJoin "\n" (c5Lines.drop 401) ++ "\n")
    ∧ Toolbox.executeDiagnosticCommand tbC5 cmdC5
        { output := goJoin "\n" c5Lines, combinedOutputErr := false,
          ctxDeadlineExceeded := false } =
        .ok (goJoin "\n" (c5Lines.drop 400)) := by
  refine ⟨truncLines_spec, ?_, ?_⟩
  · rw [executeDiagnosticCommand_ok tbC5 cmdC5 _ (by decide) (by decide) rfl]
    exact congrArg Except.ok truncateOutput_c5_trailing
  · rw [executeDiagnosticCommand_ok tbC5 cmdC5 _ (by decide) (by decide) rfl]
    exact congrArg Except.ok truncateOutput_c5_plain

/-! ## State-machine lemmas for the orchestrator -/

/-- Terminal statuses: `Succeeded` or `Failed`. -/
def Status.isTerminal : Status → Bool
  | .success => true
  | .error => true
  | _ => false

/-- Progress order of statuses: pending before running before terminal. -/
def statusRank : Status → Nat
  | .pending => 0
  | .running => 1
  | .success => 2
  | .error => 2

/-- Result messages are the only ones that evaluate the all-complete
predicate. -/
def Msg.isResult : Msg → Bool
  | .result .. => true
  | _ => false

/-- Download messages are the only ones that launch executors. -/
def Msg.isDownload : Msg → Bool
  | .download .. => true
  | _ => false

/-- While no download has completed, every per-diagnostic status is still the
zero value `pending`. -/
def UIInv (m : UIModel) : Prop :=
  m.downloaded = false → ∀ st ∈ m.statuses, st = Status.pending

/-- Membership form of the all-complete predicate. -/
theorem allDone_iff (sts : List Status) :
    allDone sts = true ↔ ∀ st ∈ sts, st ≠ Status.running ∧ st ≠ Status.pending := by
  unfold allDone
  rw [List.all_eq_true]
  constructor
  · intro h st hst
    have := h st hst
    constructor <;> intro he <;> subst he <;> simp at this
  · intro h st hst
    obtain ⟨h1, h2⟩ := h st hst
    simp [h1, h2]

/-- Messages other than `downloadMsg` and `resultMsg` leave the diagnostic
state untouched and produce no launch or summarize effect. -/
theorem update_benign (fs : FS) (m : UIModel) (msg : Msg)
    (h1 : msg.isResult = false) (h2 : msg.isDownload = false) :
    (update fs m msg).1.statuses = m.statuses
    ∧ (update fs m msg).1.downloaded = m.downloaded
    ∧ (update fs m msg).1.done = m.done
    ∧ (update fs m msg).2.countP Effect.isSummarize = 0
    ∧ (update fs m msg).2.countP Effect.isLaunch = 0 := by
  cases msg with
  | download d e => simp [Msg.isDownload] at h2
  | result i out err => simp [Msg.isResult] at h1
  | llm err render =>
    cases err with
    | some e => simp [update, Effect.isSummarize, Effect.isLaunch]
    | none =>
      cases render with
      | error e => simp [update, Effect.isSummarize, Effect.isLaunch]
      | ok rendered => simp [update, Effect.isSummarize, Effect.isLaunch]
  | tick => simp [update, Effect.isSummarize, Effect.isLaunch]
  | key k =>
    by_cases hk : k = "q" || k = "ctrl+c" || k = "esc"
    · rcases Bool.or_eq_true .. |>.mp hk with hk2 | hk2
      · rcases Bool.or_eq_true .. |>.mp hk2 with hk3 | hk3 <;>
          simp_all [update, Effect.isSummarize, Effect.isLaunch]
      · simp_all [update, Effect.isSummarize, Effect.isLaunch]
    · push_neg at hk
      by_cases ht : k = "tab" <;>
        simp_all [update, Effect.isSummarize, Effect.isLaunch]
  | noop => simp [update, Effect.isSummarize, Effect.isLaunch]

/-- Effect of a `resultMsg` step on the tracked state: exactly one status cell
is overwritten with a terminal status, nothing is launched, and a summarize
effect can be emitted only when the all-complete predicate holds on the
updated statuses. -/
theorem update_result_char (fs : FS) (m : UIModel) (i : Nat) (out : String)
    (err : Option String) :
    (update fs m (.result i out err)).1.statuses =
      m.statuses.set i (if err.isSome then .error else .success)
    ∧ (update fs m (.result i out err)).1.downloaded = m.downloaded
    ∧ (update fs m (.result i out err)).1.done = m.done
    ∧ (update fs m (.result i out err)).2.countP Effect.isLaunch = 0
    ∧ (update fs m (.result i out err)).2.countP Effect.isSummarize ≤ 1
    ∧ (0 < (update fs m (.result i out err)).2.countP Effect.isSummarize →
        allDone ((update fs m (.result i out err)).1.statuses) = true) := by
  simp only [update]
  by_cases hA : allDone (m.statuses.set i (if err.isSome then .error else .success))
  · simp only [hA, if_true]
    by_cases hG : !m.summarizing && m.summary == ""
    · simp only [hG, if_true]
      by_cases hD : m.summarizerDisabled
      · simp [hD, Effect.isLaunch, Effect.isSummarize, hA]
      · simp only [hD, Bool.false_eq_true, if_false]
        cases hpb : m.toolbox.playbook with
        | none => simp [Effect.isLaunch, Effect.isSummarize, hA]
        | some pb =>
          by_cases hsp : pb.systemPrompt == ""
          · simp [hsp, Effect.isLaunch, Effect.isSummarize, hA]
          · simp [hsp, Effect.isLaunch, Effect.isSummarize, hA]
    · simp [hG, Effect.isLaunch, Effect.isSummarize, hA]
  · simp [hA, Effect.isLaunch, Effect.isSummarize]

/-- Effect of a failed `downloadMsg`: state is preserved except that `done`
is set; the only effects are the error report and the quit. -/
theorem update_download_fail_char (fs : FS) (m : UIModel) (d : String) (e : String) :
    (update fs m (.download d (some e))).1.statuses = m.statuses
    ∧ (update fs m (.download d (some e))).1.downloaded = m.downloaded
    ∧ (update fs m (.download d (some e))).1.done = true
    ∧ (update fs m (.download d (some e))).2 = [.printErr e, .quit] := by
  simp [update]

/-- Effect of a successful `downloadMsg`: `downloaded` is set, no summarize
effect is emitted, and the statuses either stay put (resolution failure,
which also quits) or become uniformly `running`. -/
theorem update_download_ok_char (fs : FS) (m : UIModel) (d : String) :
    (update fs m (.download d none)).1.downloaded = true
    ∧ (update fs m (.download d none)).2.countP Effect.isSummarize = 0
    ∧ ((update fs m (.download d none)).1.statuses = m.statuses
        ∨ ∃ n, (update fs m (.download d none)).1.statuses = List.replicate n Status.running) := by
  simp only [update]
  cases hg : (Toolbox.getDiagnosticCommands { m.toolbox with tempDir := d } fs).2 with
  | error e => simp [hg, Effect.isSummarize]
  | ok commands =>
    refine ⟨by simp [hg], ?_, Or.inr ⟨commands.length, by simp [hg]⟩⟩
    simp only [hg]
    rw [List.countP_eq_zero]
    intro e he
    simp only [List.mem_map] at he
    obtain ⟨j, _, hj⟩ := he
    subst hj
    simp [Effect.isSummarize]

/-- The pre-download invariant is preserved by every deliverable step. -/
theorem uiInv_step (fs : FS) (m : UIModel) (msg : Msg)
    (hInv : UIInv m) (hdel : canDeliver m msg = true) :
    UIInv (update fs m msg).1 := by
  cases msg with
  | download d e =>
    cases e with
    | some e2 =>
      obtain ⟨hs, hdl, _, _⟩ := update_download_fail_char fs m d e2
      intro h
      rw [hs]
      exact hInv (by rw [← hdl]; exact h)
    | none =>
      obtain ⟨hdl, _, _⟩ := update_download_ok_char fs m d
      intro h
      rw [h] at hdl
      cases hdl
  | result i out err =>
    have hr : m.statuses[i]? = some Status.running := by
      simpa [canDeliver] using hdel
    obtain ⟨hs, hdl, _, _, _, _⟩ := update_result_char fs m i out err
    intro h
    exfalso
    have hpend := hInv (by rw [← hdl]; exact h)
    have := hpend Status.running (List.getElem?_mem hr)
    cases this
  | llm err render =>
    obtain ⟨hs, hdl, _, _, _⟩ := update_benign fs m (.llm err render) rfl rfl
    intro h
    rw [hs]
    exact hInv (by rw [← hdl]; exact h)
  | tick =>
    obtain ⟨hs, hdl, _, _, _⟩ := update_benign fs m .tick rfl rfl
    intro h
    rw [hs]
    exact hInv (by rw [← hdl]; exact h)
  | key k =>
    obtain ⟨hs, hdl, _, _, _⟩ := update_benign fs m (.key k) rfl rfl
    intro h
    rw [hs]
    exact hInv (by rw [← hdl]; exact h)
  | noop =>
    obtain ⟨hs, hdl, _, _, _⟩ := update_benign fs m .noop rfl rfl
    intro h
    rw [hs]
    exact hInv (by rw [← hdl]; exact h)

/-- After the last diagnostic has terminated (all statuses terminal, at least
one diagnostic, download done) the diagnostic state can never change again. -/
def Frozen (m : UIModel) : Prop :=
  allDone m.statuses = true ∧ m.statuses ≠ [] ∧ m.downloaded = true

/-- One deliverable step from a frozen state: still frozen, and neither a
summarize effect nor a true all-complete evaluation can occur. -/
theorem frozen_step (fs : FS) (m : UIModel) (msg : Msg)
    (hF : Frozen m) (hdel : canDeliver m msg = true) :
    Frozen (update fs m msg).1
    ∧ (update fs m msg).2.countP Effect.isSummarize = 0
    ∧ evalAllDone fs m msg = false := by
  obtain ⟨hAll, hne, hdl⟩ := hF
  cases msg with
  | download d e =>
    exfalso
    simp [canDeliver, hdl] at hdel
  | result i out err =>
    exfalso
    have hr : m.statuses[i]? = some Status.running := by
      simpa [canDeliver] using hdel
    have := (allDone_iff m.statuses).mp hAll Status.running (List.getElem?_mem hr)
    exact this.1 rfl
  | llm err render =>
    obtain ⟨hs, hdl2, _, hcs, _⟩ := update_benign fs m (.llm err render) rfl rfl
    exact ⟨⟨by rw [hs]; exact hAll, by rw [hs]; exact hne, by rw [hdl2]; exact hdl⟩,
      hcs, rfl⟩
  | tick =>
    obtain ⟨hs, hdl2, _, hcs, _⟩ := update_benign fs m .tick rfl rfl
    exact ⟨⟨by rw [hs]; exact hAll, by rw [hs]; exact hne, by rw [hdl2]; exact hdl⟩,
      hcs, rfl⟩
  | key k =>
    obtain ⟨hs, hdl2, _, hcs, _⟩ := update_benign fs m (.key k) rfl rfl
    exact ⟨⟨by rw [hs]; exact hAll, by rw [hs]; exact hne, by rw [hdl2]; exact hdl⟩,
      hcs, rfl⟩
  | noop =>
    obtain ⟨hs, hdl2, _, hcs, _⟩ := update_benign fs m .noop rfl rfl
    exact ⟨⟨by rw [hs]; exact hAll, by rw [hs]; exact hne, by rw [hdl2]; exact hdl⟩,
      hcs, rfl⟩

/-- Along any deliverable continuation of a frozen state, no summarize effect
is ever emitted and the all-complete predicate never again evaluates true. -/
theorem frozen_trace (fs : FS) : ∀ (msgs : List Msg) (m : UIModel),
    Frozen m → validSeq fs m msgs = true →
    countEff Effect.isSummarize fs m msgs = 0 ∧ countAllDoneTrue fs m msgs = 0 := by
  intro msgs
  induction msgs with
  | nil => intro m _ _; exact ⟨rfl, rfl⟩
  | cons msg rest ih =>
    intro m hF hv
    obtain ⟨hdel, hrest⟩ := Bool.and_eq_true .. |>.mp (by simpa [validSeq] using hv)
    obtain ⟨hF2, hcs, hev⟩ := frozen_step fs m msg hF hdel
    obtain ⟨ih1, ih2⟩ := ih (update fs m msg).1 hF2 hrest
    constructor
    · simp [countEff, hcs, ih1]
    · simp [countAllDoneTrue, hev, ih2]

/-- A deliverable sequence splits into a deliverable prefix and a deliverable
continuation from the reached state. -/
theorem validSeq_append (fs : FS) : ∀ (a b : List Msg) (m : UIModel),
    validSeq fs m (a ++ b) = true →
    validSeq fs m a = true ∧ validSeq fs (runState fs m a) b = true := by
  intro a
  induction a with
  | nil => intro b m h; exact ⟨rfl, h⟩
  | cons msg rest ih =>
    intro b m h
    obtain ⟨hdel, h2⟩ := Bool.and_eq_true .. |>.mp (by simpa [validSeq] using h)
    obtain ⟨h3, h4⟩ := ih b (update fs m msg).1 h2
    exact ⟨by simp [validSeq, hdel, h3], h4⟩

/-- The initial model satisfies the pre-download invariant. -/
theorem uiInv_init (tb : Toolbox) (fs : FS) (dis : Bool) : UIInv (NewModel tb fs dis) := by
  intro _ st hst
  simp only [NewModel] at hst
  exact List.eq_of_mem_replicate hst

/-- The pre-download invariant holds at every state reached by a deliverable
sequence. -/
theorem uiInv_runState (fs : FS) : ∀ (a : List Msg) (m : UIModel),
    UIInv m → validSeq fs m a = true → UIInv (runState fs m a) := by
  intro a
  induction a with
  | nil => intro m h _; exact h
  | cons msg rest ih =>
    intro m h hv
    obtain ⟨hdel, h2⟩ := Bool.and_eq_true .. |>.mp (by simpa [validSeq] using hv)
    exact ih (update fs m msg).1 (uiInv_step fs m msg h hdel) h2

/-- A single step emits no summarize effect unless it is a result step whose
updated statuses satisfy the all-complete predicate. -/
theorem step_summarize_zero (fs : FS) (m : UIModel) (msg : Msg)
    (hev : evalAllDone fs m msg = false) :
    (update fs m msg).2.countP Effect.isSummarize = 0 := by
  cases msg with
  | download d e =>
    cases e with
    | some e2 =>
      obtain ⟨_, _, _, heff⟩ := update_download_fail_char fs m d e2
      rw [heff]
      simp [Effect.isSummarize]
    | none => exact (update_download_ok_char fs m d).2.1
  | result i out err =>
    obtain ⟨_, _, _, _, _, himp⟩ := update_result_char fs m i out err
    by_contra h
    have hpos : 0 < (update fs m (.result i out err)).2.countP Effect.isSummarize :=
      Nat.pos_of_ne_zero h
    have := himp hpos
    simp only [evalAllDone] at hev
    rw [hev] at this
    cases this
  | llm err render => exact (update_benign fs m (.llm err render) rfl rfl).2.2.2.1
  | tick => exact (update_benign fs m .tick rfl rfl).2.2.2.1
  | key k => exact (update_benign fs m (.key k) rfl rfl).2.2.2.1
  | noop => exact (update_benign fs m .noop rfl rfl).2.2.2.1

/-- Core counting argument: along any deliverable sequence from a state
satisfying the pre-download invariant, the all-complete predicate evaluates
true at most once and at most one summarize effect is emitted in total. -/
theorem counts_le_one (fs : FS) : ∀ (msgs : List Msg) (m : UIModel),
    UIInv m → validSeq fs m msgs = true →
    countEff Effect.isSummarize fs m msgs ≤ 1 ∧ countAllDoneTrue fs m msgs ≤ 1 := by
  intro msgs
  induction msgs with
  | nil => intro m _ _; exact ⟨Nat.zero_le 1, Nat.zero_le 1⟩
  | cons msg rest ih =>
    intro m hInv hv
    obtain ⟨hdel, hrest⟩ := Bool.and_eq_true .. |>.mp (by simpa [validSeq] using hv)
    by_cases hev : evalAllDone fs m msg = true
    · cases msg with
      | result i out err =>
        have hr : m.statuses[i]? = some Status.running := by
          simpa [canDeliver] using hdel
        obtain ⟨hs, hdl, _, _, hle, _⟩ := update_result_char fs m i out err
        have hAll : allDone (update fs m (.result i out err)).1.statuses = true := by
          simpa [evalAllDone] using hev
        have hmemrun : Status.running ∈ m.statuses := List.getElem?_mem hr
        have hnn : m.statuses ≠ [] := List.ne_nil_of_mem hmemrun
        have hdltrue : m.downloaded = true := by
          by_contra hfalse
          have := hInv (Bool.eq_false_iff.mpr hfalse ▸ (by
            cases hmd : m.downloaded
            · rfl
            · exact absurd hmd hfalse))
          have := this Status.running hmemrun
          cases this
        have hF : Frozen (update fs m (.result i out err)).1 := by
          refine ⟨hAll, ?_, by rw [hdl]; exact hdltrue⟩
          rw [hs]
          intro hcon
          have := congrArg List.length hcon
          rw [List.length_set] at this
          exact hnn (List.length_eq_zero.mp this)
        obtain ⟨hz1, hz2⟩ := frozen_trace fs rest _ hF hrest
        constructor
        · simp only [countEff, hz1]
          omega
        · simp only [countAllDoneTrue, hz2, hev, if_true]
          omega
      | download d e => simp [evalAllDone] at hev
      | llm err render => simp [evalAllDone] at hev
      | tick => simp [evalAllDone] at hev
      | key k => simp [evalAllDone] at hev
      | noop => simp [evalAllDone] at hev
    · have hev2 : evalAllDone fs m msg = false := Bool.eq_false_iff.mpr hev
      have hz := step_summarize_zero fs m msg hev2
      obtain ⟨ih1, ih2⟩ := ih (update fs m msg).1 (uiInv_step fs m msg hInv hdel) hrest
      constructor
      · simp only [countEff, hz]
        omega
      · simp only [countAllDoneTrue, hev2, Bool.false_eq_true, if_false]
        omega

/-! ## Claim C2 -/

/-- Claim C2: along any deliverable run from the initial model, the
all-complete predicate evaluates true at most once, the summarization trigger
(the `summarizeCmd` effect) fires at most once in total, and whenever it
fires, every diagnostic — in particular the last one to finish — is already in
a terminal status (and there is at least one diagnostic): it never fires
before the last diagnostic terminates. -/
theorem C2_summarize_fires_at_most_once_after_last (tb : Toolbox) (fs : FS) (dis : Bool)
    (msgs : List Msg) (hv : validSeq fs (NewModel tb fs dis) msgs = true) :
    countAllDoneTrue fs (NewModel tb fs dis) msgs ≤ 1
    ∧ countEff Effect.isSummarize fs (NewModel tb fs dis) msgs ≤ 1
    ∧ ∀ pre msg rest, msgs = pre ++ msg :: rest →
        0 < (update fs (runState fs (NewModel tb fs dis) pre) msg).2.countP Effect.isSummarize →
        allDone ((update fs (runState fs (NewModel tb fs dis) pre) msg).1.statuses) = true
        ∧ (update fs (runState fs (NewModel tb fs dis) pre) msg).1.statuses ≠ [] := by
  obtain ⟨h1, h2⟩ := counts_le_one fs msgs (NewModel tb fs dis) (uiInv_init tb fs dis) hv
  refine ⟨h2, h1, ?_⟩
  intro pre msg rest hsplit hpos
  rw [hsplit] at hv
  obtain ⟨hpre, hcont⟩ := validSeq_append fs pre (msg :: rest) _ hv
  obtain ⟨hdel, _⟩ := Bool.and_eq_true .. |>.mp (by simpa [validSeq] using hcont)
  set s := runState fs (NewModel tb fs dis) pre with hs
  cases msg with
  | result i out err =>
    have hr : s.statuses[i]? = some Status.running := by
      simpa [canDeliver] using hdel
    obtain ⟨hst, _, _, _, _, himp⟩ := update_result_char fs s i out err
    refine ⟨himp hpos, ?_⟩
    rw [hst]
    intro hcon
    have := congrArg List.length hcon
    rw [List.length_set] at this
    exact List.ne_nil_of_mem (List.getElem?_mem hr) (List.length_eq_zero.mp this)
  | download d e =>
    exfalso
    cases e with
    | some e2 =>
      obtain ⟨_, _, _, heff⟩ := update_download_fail_char fs s d e2
      rw [heff] at hpos
      simp [Effect.isSummarize] at hpos
    | none =>
      rw [(update_download_ok_char fs s d).2.1] at hpos
      exact Nat.lt_irrefl 0 hpos
  | llm err render =>
    exact absurd ((update_benign fs s (.llm err render) rfl rfl).2.2.2.1 ▸ hpos)
      (Nat.lt_irrefl 0)
  | tick =>
    exact absurd ((update_benign fs s .tick rfl rfl).2.2.2.1 ▸ hpos) (Nat.lt_irrefl 0)
  | key k =>
    exact absurd ((update_benign fs s (.key k) rfl rfl).2.2.2.1 ▸ hpos) (Nat.lt_irrefl 0)
  | noop =>
    exact absurd ((update_benign fs s .noop rfl rfl).2.2.2.1 ▸ hpos) (Nat.lt_irrefl 0)

/-- Witness for C2: a one-diagnostic run (download, then its single result)
triggers exactly one summarize effect and one true all-complete evaluation. -/
theorem C2_witness :
    validSeq fsW (NewModel tbW fsW false) [.download "/tmp/tb" none, .result 0 "up" none] = true
    ∧ countEff Effect.isSummarize fsW (NewModel tbW fsW false)
        [.download "/tmp/tb" none, .result 0 "up" none] = 1
    ∧ countAllDoneTrue fsW (NewModel tbW fsW false)
        [.download "/tmp/tb" none, .result 0 "up" none] ≤ 1
    ∧ countEff Effect.isSummarize fsW (NewModel tbW fsW false)
        [.download "/tmp/tb" none, .result 0 "up" none] ≤ 1 :=
  ⟨by decide, by decide,
   (C2_summarize_fires_at_most_once_after_last tbW fsW false _ (by decide)).1,
   (C2_summarize_fires_at_most_once_after_last tbW fsW false _ (by decide)).2.1⟩

/-! ## Claim C6 -/

/-- Single-step monotonicity: under the delivery discipline, each status cell
either stays put or advances along pending, running, terminal; a terminal cell
never changes; and once any cell is terminal no executor launch is ever
emitted again. -/
theorem step_mono (fs : FS) (m : UIModel) (msg : Msg)
    (hInv : UIInv m) (hdel : canDeliver m msg = true) :
    (∀ (i : Nat) (st st' : Status), m.statuses[i]? = some st →
      (update fs m msg).1.statuses[i]? = some st' →
      statusRank st ≤ statusRank st' ∧ (st.isTerminal = true → st' = st))
    ∧ ((∃ (j : Nat) (stj : Status), m.statuses[j]? = some stj ∧ stj.isTerminal = true) →
      (update fs m msg).2.countP Effect.isLaunch = 0) := by
  cases msg with
  | download d e =>
    have hnd : m.downloaded = false := by
      have h0 : m.downloaded = false ∧ m.done = false := by simpa [canDeliver] using hdel
      exact h0.1
    have hpend := hInv hnd
    constructor
    · intro i st st' hpre _
      have : st = Status.pending := hpend st (List.getElem?_mem hpre)
      subst this
      exact ⟨Nat.zero_le _, by intro h; cases h⟩
    · rintro ⟨j, stj, hj, hterm⟩
      have : stj = Status.pending := hpend stj (List.getElem?_mem hj)
      subst this
      cases hterm
  | result i2 out err =>
    have hr : m.statuses[i2]? = some Status.running := by
      simpa [canDeliver] using hdel
    obtain ⟨hst, _, _, hlz, _, _⟩ := update_result_char fs m i2 out err
    constructor
    · intro i st st' hpre hpost
      rw [hst] at hpost
      by_cases hi : i = i2
      · subst hi
        have hstrun : st = Status.running := by
          rw [hpre] at hr
          exact Option.some.inj hr
        subst hstrun
        have hlt : i < m.statuses.length := by
          by_contra hge
          rw [List.getElem?_eq_none (Nat.le_of_not_lt hge)] at hpre
          cases hpre
        rw [List.getElem?_set_self hlt] at hpost
        have : st' = (if err.isSome then Status.error else Status.success) :=
          (Option.some.inj hpost).symm
        subst this
        constructor
        · cases err <;> simp [statusRank]
        · intro h; cases h
      · rw [List.getElem?_set_ne (fun h => hi h.symm)] at hpost
        rw [hpre] at hpost
        have : st' = st := (Option.some.inj hpost).symm
        subst this
        exact ⟨Nat.le_refl _, fun _ => rfl⟩
    · intro _
      exact hlz
  | llm err render =>
    obtain ⟨hs, _, _, _, hlz⟩ := update_benign fs m (.llm err render) rfl rfl
    refine ⟨?_, fun _ => hlz⟩
    intro i st st' hpre hpost
    rw [hs, hpre] at hpost
    have : st' = st := (Option.some.inj hpost).symm
    subst this
    exact ⟨Nat.le_refl _, fun _ => rfl⟩
  | tick =>
    obtain ⟨hs, _, _, _, hlz⟩ := update_benign fs m .tick rfl rfl
    refine ⟨?_, fun _ => hlz⟩
    intro i st st' hpre hpost
    rw [hs, hpre] at hpost
    have : st' = st := (Option.some.inj hpost).symm
    subst this
    exact ⟨Nat.le_refl _, fun _ => rfl⟩
  | key k =>
    obtain ⟨hs, _, _, _, hlz⟩ := update_benign fs m (.key k) rfl rfl
    refine ⟨?_, fun _ => hlz⟩
    intro i st st' hpre hpost
    rw [hs, hpre] at hpost
    have : st' = st := (Option.some.inj hpost).symm
    subst this
    exact ⟨Nat.le_refl _, fun _ => rfl⟩
  | noop =>
    obtain ⟨hs, _, _, _, hlz⟩ := update_benign fs m .noop rfl rfl
    refine ⟨?_, fun _ => hlz⟩
    intro i st st' hpre hpost
    rw [hs, hpre] at hpost
    have : st' = st := (Option.some.inj hpost).symm
    subst this
    exact ⟨Nat.le_refl _, fun _ => rfl⟩

/-! Claim C6 theorem -/

/-- Claim C6: at every point of a deliverable run from the initial model, the
next message moves each per-diagnostic status cell only forward along
Pending, Running, then a terminal status; a cell already terminal is left
exactly as it is by every later message; and once any cell is terminal, no
message ever emits an executor launch again (no re-run). -/
theorem C6_statuses_monotone (tb : Toolbox) (fs : FS) (dis : Bool)
    (msgs pre rest : List Msg) (msg : Msg)
    (hsplit : msgs = pre ++ msg :: rest)
    (hv : validSeq fs (NewModel tb fs dis) msgs = true) :
    (∀ (i : Nat) (st st' : Status),
      (runState fs (NewModel tb fs dis) pre).statuses[i]? = some st →
      (update fs (runState fs (NewModel tb fs dis) pre) msg).1.statuses[i]? = some st' →
      statusRank st ≤ statusRank st' ∧ (st.isTerminal = true → st' = st))
    ∧ ((∃ (j : Nat) (stj : Status),
        (runState fs (NewModel tb fs dis) pre).statuses[j]? = some stj
        ∧ stj.isTerminal = true) →
      (update fs (runState fs (NewModel tb fs dis) pre) msg).2.countP Effect.isLaunch = 0) := by
  rw [hsplit] at hv
  obtain ⟨hpre, hcont⟩ := validSeq_append fs pre (msg :: rest) _ hv
  obtain ⟨hdel, _⟩ := Bool.and_eq_true .. |>.mp (by simpa [validSeq] using hcont)
  exact step_mono fs _ msg (uiInv_runState fs pre _ (uiInv_init tb fs dis) hpre) hdel

/-- Witness for C6 at the one-diagnostic run: the step processing the single
result moves entry 0 from Running to Succeeded. -/
theorem C6_witness :
    validSeq fsW (NewModel tbW fsW false) [.download "/tmp/tb" none, .result 0 "up" none] = true
    ∧ ((∀ (i : Nat) (st st' : Status),
        (runState fsW (NewModel tbW fsW false) [.download "/tmp/tb" none]).statuses[i]? = some st →
        (update fsW (runState fsW (NewModel tbW fsW false) [.download "/tmp/tb" none])
          (.result 0 "up" none)).1.statuses[i]? = some st' →
        statusRank st ≤ statusRank st' ∧ (st.isTerminal = true → st' = st))
      ∧ ((∃ (j : Nat) (stj : Status),
          (runState fsW (NewModel tbW fsW false) [.download "/tmp/tb" none]).statuses[j]? = some stj
          ∧ stj.isTerminal = true) →
        (update fsW (runState fsW (NewModel tbW fsW false) [.download "/tmp/tb" none])
          (.result 0 "up" none)).2.countP Effect.isLaunch = 0)) :=
  ⟨by decide,
   C6_statuses_monotone tbW fsW false [.download "/tmp/tb" none, .result 0 "up" none]
     [.download "/tmp/tb" none] [] (.result 0 "up" none) rfl (by decide)⟩

/-! ## Claim C9 -/

/-- Once the loop has decided to quit (`done` set), no deliverable
continuation ever emits an executor launch. -/
theorem done_no_launch (fs : FS) : ∀ (msgs : List Msg) (m : UIModel),
    m.done = true → validSeq fs m msgs = true →
    countEff Effect.isLaunch fs m msgs = 0 := by
  intro msgs
  induction msgs with
  | nil => intro m _ _; rfl
  | cons msg rest ih =>
    intro m hdone hv
    obtain ⟨hdel, hrest⟩ := Bool.and_eq_true .. |>.mp (by simpa [validSeq] using hv)
    cases msg with
    | download d e =>
      exfalso
      have h0 : m.downloaded = false ∧ m.done = false := by simpa [canDeliver] using hdel
      rw [hdone] at h0
      cases h0.2
    | result i out err =>
      obtain ⟨_, _, hdn, hlz, _, _⟩ := update_result_char fs m i out err
      have := ih _ (hdn ▸ hdone) hrest
      simp [countEff, hlz, this]
    | llm err render =>
      obtain ⟨_, _, hdn, _, hlz⟩ := update_benign fs m (.llm err render) rfl rfl
      have := ih _ (hdn ▸ hdone) hrest
      simp [countEff, hlz, this]
    | tick =>
      obtain ⟨_, _, hdn, _, hlz⟩ := update_benign fs m .tick rfl rfl
      have := ih _ (hdn ▸ hdone) hrest
      simp [countEff, hlz, this]
    | key k =>
      obtain ⟨_, _, hdn, _, hlz⟩ := update_benign fs m (.key k) rfl rfl
      have := ih _ (hdn ▸ hdone) hrest
      simp [countEff, hlz, this]
    | noop =>
      obtain ⟨_, _, hdn, _, hlz⟩ := update_benign fs m .noop rfl rfl
      have := ih _ (hdn ▸ hdone) hrest
      simp [countEff, hlz, this]

/-- Claim C9 fails on the code in its exit-status half: a failed download
prints the error and quits through `tea.Quit` — a graceful stop after which
`Program.Run` returns no error — so the process exit status, `mainExitCode`
of that nil error, is 0, not the non-zero outcome the claim requires.  (The
other half of the claim holds: the step emits no executor launch.) -/
theorem C9_counterexample :
    (update fsW (NewModel tbW fsW false) (.download "/tmp/tb" (some "bad status"))).2 =
      [.printErr "bad status", .quit]
    ∧ (update fsW (NewModel tbW fsW false) (.download "/tmp/tb" (some "bad status"))).1.done = true
    ∧ mainExitCode none = 0 := by
  decide

/-- Claim C9 as amended: when the fetch/extraction step fails, the
orchestrator reports the error, quits, and never launches any diagnostic —
but the process terminates gracefully with exit status 0 (the failure is
reported on standard output, not through the exit code). -/
theorem C9_amended_failure_reports_quits_no_diagnostics (tb : Toolbox) (fs : FS)
    (dis : Bool) (d e : String) (msgs : List Msg)
    (hv : validSeq fs (update fs (NewModel tb fs dis) (.download d (some e))).1 msgs = true) :
    (update fs (NewModel tb fs dis) (.download d (some e))).2 = [.printErr e, .quit]
    ∧ (update fs (NewModel tb fs dis) (.download d (some e))).1.done = true
    ∧ countEff Effect.isLaunch fs
        (update fs (NewModel tb fs dis) (.download d (some e))).1 msgs = 0
    ∧ mainExitCode none = 0 := by
  obtain ⟨_, _, hdone, heff⟩ := update_download_fail_char fs (NewModel tb fs dis) d e
  exact ⟨heff, hdone, done_no_launch fs msgs _ hdone hv, rfl⟩

/-- Witness for C9 (amended) at a concrete failed download followed by a
spinner tick. -/
theorem C9_witness :
    (update fsW (NewModel tbW fsW false) (.download "/tmp/tb" (some "boom"))).2 =
      [.printErr "boom", .quit]
    ∧ (update fsW (NewModel tbW fsW false) (.download "/tmp/tb" (some "boom"))).1.done = true
    ∧ countEff Effect.isLaunch fsW
        (update fsW (NewModel tbW fsW false) (.download "/tmp/tb" (some "boom"))).1 [.tick] = 0
    ∧ mainExitCode none = 0 :=
  C9_amended_failure_reports_quits_no_diagnostics tbW fsW false "/tmp/tb" "boom" [.tick]
    (by decide)
